import Mathlib

/-
Shallow embedding of the ledger/consensus core of `src/blockchain.py`.

The SHA-256 hash is abstracted: `H : Block → String` stands for
`Blockchain.hash` (the canonical-JSON digest of a block, lines 172-185) and
`sha : String → String` stands for `hashlib.sha256(...).hexdigest()` applied
to the proof-of-work guess string (lines 231-232).  Every definition below is
parametric in these two collaborator functions; claims are settled for all
instantiations, or exhibited on concrete ones.

Fallible Python code (IndexError on `chain[0]` of an empty list, an uncaught
exception from `requests.get`) is modelled with `Option`/`Except`.
Timestamps (`time()`) and the node identifier (`uuid4()`) are supplied by the
caller as parameters, since they are collaborator inputs.
-/

/-- `previous_hash` in the Python dict is either the integer sentinel `1`
(genesis, line 37) or a hex digest string; a Python `int` never equals a
Python `str`, which this sum type reproduces. -/
inductive HashVal where
  | intVal : Int → HashVal
  | str : String → HashVal
deriving DecidableEq

/-- A transaction dict (lines 161-165). -/
structure Txn where
  sender : String
  recipient : String
  amount : Int
deriving DecidableEq

/-- A block dict (lines 134-140). -/
structure Block where
  index : Nat
  timestamp : Nat
  transactions : List Txn
  proof : Nat
  previous_hash : HashVal
deriving DecidableEq

/-- The `Blockchain` object's state (lines 32-35).  Python's `set` of nodes is
modelled as a duplicate-free list in registration order (`addNode` below
inserts only when absent, reproducing set semantics). -/
structure Blockchain where
  chain : List Block
  current_transactions : List Txn
  nodes : List String
deriving DecidableEq

/-- `valid_proof` (lines 217-233): sha256 of the concatenation of the decimal
forms of the two proofs and the previous hash must start with four `'0'`
(`guess_hash[:4] == '0000'`, stated on the character list of the digest). -/
def valid_proof (sha : String → String) (last_proof proof : Nat) (last_hash : String) : Bool :=
  (sha (toString last_proof ++ toString proof ++ last_hash)).data.take 4 == "0000".data

/-- `proof_of_work` (lines 194-214): starting at 0 and incrementing by 1,
return the first candidate accepted by `valid_proof`.  The Python `while`
loop terminates exactly when a valid candidate exists, which the hypothesis
`hex` records; the loop's result is the least such candidate, i.e. `Nat.find`. -/
def proof_of_work (H : Block → String) (sha : String → String) (b : Block)
    (hex : ∃ s, valid_proof sha b.proof s (H b) = true) : Nat :=
  Nat.find hex

/-- The `while current_index < len(chain)` walk of `valid_chain`
(lines 73-88), recursing over the tail with the running `last_block`. -/
def validFrom (H : Block → String) (sha : String → String) : Block → List Block → Bool
  | _, [] => true
  | last, b :: rest =>
    let last_block_hash := H last
    if b.previous_hash ≠ HashVal.str last_block_hash then false
    else if !(valid_proof sha last.proof b.proof last_block_hash) then false
    else validFrom H sha b rest

/-- `valid_chain` (lines 61-88).  `chain[0]` on the empty list raises
IndexError, modelled by `none`. -/
def valid_chain (H : Block → String) (sha : String → String) (chain : List Block) : Option Bool :=
  match chain with
  | [] => none
  | first :: rest => some (validFrom H sha first rest)

/-- `new_block` (lines 122-145): build the block from the current state,
clear the pending pool, append, and return the block. -/
def new_block (bc : Blockchain) (now : Nat) (proof : Nat) (previous_hash : HashVal) :
    Block × Blockchain :=
  let block : Block :=
    { index := bc.chain.length + 1
      timestamp := now
      transactions := bc.current_transactions
      proof := proof
      previous_hash := previous_hash }
  (block, { bc with current_transactions := [], chain := bc.chain ++ [block] })

/-- `new_transaction` (lines 148-169): append the transaction to the pool and
return `last_block.index + 1` (`none` if the chain is empty, where Python's
`chain[-1]` would raise). -/
def new_transaction (bc : Blockchain) (sender recipient : String) (amount : Int) :
    Blockchain × Option Nat :=
  ({ bc with current_transactions :=
      bc.current_transactions ++ [{ sender := sender, recipient := recipient, amount := amount }] },
   bc.chain.getLast?.map (fun b => b.index + 1))

/-- `__init__` (lines 32-37): empty state, then `new_block(proof=100, previous_hash=1)`. -/
def Blockchain.init (now : Nat) : Blockchain :=
  (new_block { chain := [], current_transactions := [], nodes := [] } now 100
    (HashVal.intVal 1)).2

/-- `last_block` property (lines 188-191), total on non-empty chains. -/
def last_block (bc : Blockchain) (h : bc.chain ≠ []) : Block :=
  bc.chain.getLast h

/-- Python `set.add`: insert only when absent. -/
def addNode (nodes : List String) (x : String) : List String :=
  if x ∈ nodes then nodes else nodes ++ [x]

/-- The output of `urllib.parse.urlparse`, the external parser consumed by
`register_node`; only the two fields the code inspects are kept. -/
structure ParsedUrl where
  netloc : String
  path : String
deriving DecidableEq

/-- `register_node` (lines 40-58): add `netloc` when non-empty, else `path`
when non-empty, else raise `ValueError('Invalid URL')`. -/
def register_node (bc : Blockchain) (p : ParsedUrl) : Except String Blockchain :=
  if p.netloc ≠ "" then Except.ok { bc with nodes := addNode bc.nodes p.netloc }
  else if p.path ≠ "" then Except.ok { bc with nodes := addNode bc.nodes p.path }
  else Except.error "Invalid URL"

/-- The reward transaction of `mine` (lines 292-296). -/
def reward_txn (node_id : String) : Txn :=
  { sender := "0", recipient := node_id, amount := 1 }

/-- `mine` (lines 281-310): refuse on an empty pool; otherwise solve the
puzzle against the last block, append the reward transaction, and mint a
block with the solved proof and the last block's digest.  The hypotheses
`hne`/`hex` record that the chain is non-empty and the puzzle solvable
whenever the mining branch is actually taken. -/
def mine (H : Block → String) (sha : String → String) (node_id : String) (now : Nat)
    (bc : Blockchain)
    (hne : bc.current_transactions ≠ [] → bc.chain ≠ [])
    (hex : ∀ h : bc.current_transactions ≠ [], ∃ s,
      valid_proof sha (last_block bc (hne h)).proof s (H (last_block bc (hne h))) = true) :
    Option Block × Blockchain :=
  if h : bc.current_transactions = [] then (none, bc)
  else
    let lb := last_block bc (hne h)
    let proof := proof_of_work H sha lb (hex h)
    let bc1 := (new_transaction bc "0" node_id 1).1
    let previous_hash := HashVal.str (H lb)
    let res := new_block bc1 now proof previous_hash
    (some res.1, res.2)

/-- Outcome of `requests.get(f'http:/.../chain/')` on one peer: either the
call raises (network error), or it yields a status code and the decoded
`length`/`chain` fields (lines 105-109). -/
inductive FetchResult where
  | raised : FetchResult
  | response : Nat → Nat → List Block → FetchResult
deriving DecidableEq

/-- The peer loop of `resolve_conflicts` (lines 104-113), threading the
running `max_length` and `new_chain`.  A raising fetch propagates (there is
no try/except in the source); `valid_chain` is evaluated only when
`length > max_length` (Python's `and` short-circuit), and its IndexError on
an empty chain also propagates. -/
def scanPeers (H : Block → String) (sha : String → String) (fetch : String → FetchResult) :
    List String → Nat → Option (List Block) → Except Unit (Nat × Option (List Block))
  | [], maxLen, best => Except.ok (maxLen, best)
  | n :: rest, maxLen, best =>
    match fetch n with
    | FetchResult.raised => Except.error ()
    | FetchResult.response status len chain =>
      if status = 200 then
        if len > maxLen then
          match valid_chain H sha chain with
          | none => Except.error ()
          | some true => scanPeers H sha fetch rest len (some chain)
          | some false => scanPeers H sha fetch rest maxLen best
        else scanPeers H sha fetch rest maxLen best
      else scanPeers H sha fetch rest maxLen best

/-- `resolve_conflicts` (lines 91-119).  `if new_chain:` is Python truthiness:
false for `None` and for the empty list. -/
def resolve_conflicts (H : Block → String) (sha : String → String)
    (fetch : String → FetchResult) (bc : Blockchain) : Except Unit (Bool × Blockchain) :=
  match scanPeers H sha fetch bc.nodes bc.chain.length none with
  | Except.error () => Except.error ()
  | Except.ok (_, some newChain) =>
      if newChain.isEmpty then Except.ok (false, bc)
      else Except.ok (true, { bc with chain := newChain })
  | Except.ok (_, none) => Except.ok (false, bc)

/-- A peer `n` "qualifies" for adoption: its fetch came back with status 200
and some reported length and chain, and the chain validates. -/
def Qf (H : Block → String) (sha : String → String) (fetch : String → FetchResult)
    (n : String) (len : Nat) (c : List Block) : Prop :=
  fetch n = FetchResult.response 200 len c ∧ valid_chain H sha c = some true

/- Concrete collaborator instantiations used for witnesses and
counterexamples. -/

/-- A block digest that is constantly `"h"`. -/
def HW : Block → String := fun _ => "h"

/-- A guess hash that accepts every candidate. -/
def shaAll : String → String := fun _ => "0000"

/-- A guess hash that accepts exactly the guess `"32h"`
(previous proof 3, candidate 2, previous digest `"h"`). -/
def shaSel : String → String := fun g => if g = "32h" then "0000x" else "ffff"

/-- The genesis block minted at time 0. -/
def g0 : Block :=
  { index := 1, timestamp := 0, transactions := [], proof := 100
    previous_hash := HashVal.intVal 1 }

/-- A block that is not the genesis block. -/
def bNG : Block :=
  { index := 7, timestamp := 0, transactions := [], proof := 3
    previous_hash := HashVal.str "zz" }

/-- A two-block chain rooted at `bNG`, valid for `HW`/`shaAll`. -/
def cW : List Block :=
  [bNG,
   { index := 9, timestamp := 0, transactions := [], proof := 4
     previous_hash := HashVal.str "h" }]

/- ------------------------------------------------------------------ -/
/- Claim theorems                                                      -/
/- ------------------------------------------------------------------ -/

/-- C7: a freshly initialized ledger has a chain of length exactly 1 whose
single block is the genesis block with index 1, proof 100 and the integer-1
sentinel as `previous_hash`, and its pending pool is empty. -/
theorem init_genesis_spec (now : Nat) :
    (Blockchain.init now).chain =
      [{ index := 1, timestamp := now, transactions := [], proof := 100
         previous_hash := HashVal.intVal 1 }] ∧
    (Blockchain.init now).chain.length = 1 ∧
    (Blockchain.init now).current_transactions = [] :=
  ⟨rfl, rfl, rfl⟩

/-- Counterexample to C3 as stated: on a ledger whose single block has index
7, `new_block` mints a block with index 2 (`len(chain) + 1`), not
`chain.last.index + 1 = 8`. -/
def bcX : Blockchain :=
  { chain := [{ index := 7, timestamp := 0, transactions := [], proof := 3
                previous_hash := HashVal.str "x" }]
    current_transactions := [], nodes := [] }

/-- C3 (counterexample): every block of `bcX.chain` has index 7, yet the
freshly minted block has index 2, not 7 + 1. -/
theorem new_block_index_cex :
    (∀ b ∈ bcX.chain, b.index = 7) ∧
    ((new_block bcX 0 5 (HashVal.str "p")).1).index = 2 ∧
    ((new_block bcX 0 5 (HashVal.str "p")).1).index ≠ 7 + 1 := by
  decide

/-- C3 (amended): `new_block` mints a block with `index = chain.length + 1`
(not `chain.last.index + 1`), timestamp `now`, the entire pending pool in
order, the given proof and previous hash; it empties the pool, appends the
block and returns it; a transaction submitted afterwards does not change the
chain holding the already-minted block. -/
theorem new_block_spec (bc : Blockchain) (now proof : Nat) (ph : HashVal) :
    new_block bc now proof ph =
      ({ index := bc.chain.length + 1, timestamp := now
         transactions := bc.current_transactions, proof := proof, previous_hash := ph },
       { chain := bc.chain ++
           [{ index := bc.chain.length + 1, timestamp := now
              transactions := bc.current_transactions, proof := proof, previous_hash := ph }]
         current_transactions := [], nodes := bc.nodes }) ∧
    ∀ s r a, ((new_transaction (new_block bc now proof ph).2 s r a).1).chain =
      (new_block bc now proof ph).2.chain :=
  ⟨rfl, fun _ _ _ => rfl⟩

/-- C8: mining with an empty pending pool is a no-op: no block is produced
and the state (in particular the chain) is unchanged. -/
theorem mine_empty_pool (H : Block → String) (sha : String → String)
    (node_id : String) (now : Nat) (bc : Blockchain) (hne) (hex)
    (h : bc.current_transactions = []) :
    mine H sha node_id now bc hne hex = (none, bc) := by
  simp only [mine, dif_pos h]

/-- Chain/pool hypotheses for mining on the freshly initialized ledger with
an empty pool: both are vacuous. -/
def hneW8 : (Blockchain.init 0).current_transactions ≠ [] → (Blockchain.init 0).chain ≠ [] :=
  fun h => absurd rfl h

def hexW8 : ∀ h : (Blockchain.init 0).current_transactions ≠ [], ∃ s,
    valid_proof shaAll (last_block (Blockchain.init 0) (hneW8 h)).proof s
      (HW (last_block (Blockchain.init 0) (hneW8 h))) = true :=
  fun h => absurd rfl h

/-- C8 (witness): mining the freshly initialized ledger produces no block and
leaves the state unchanged. -/
theorem mine_empty_pool_witness :
    mine HW shaAll "nid" 0 (Blockchain.init 0) hneW8 hexW8 = (none, Blockchain.init 0) :=
  mine_empty_pool HW shaAll "nid" 0 (Blockchain.init 0) hneW8 hexW8 rfl

/-- C4: whenever some valid candidate exists, `proof_of_work` returns a
candidate accepted by `valid_proof`, and it is the least such non-negative
integer (the search starts at 0 and increments by 1). -/
theorem proof_of_work_spec (H : Block → String) (sha : String → String) (b : Block)
    (hex : ∃ s, valid_proof sha b.proof s (H b) = true) :
    valid_proof sha b.proof (proof_of_work H sha b hex) (H b) = true ∧
    ∀ m, valid_proof sha b.proof m (H b) = true → proof_of_work H sha b hex ≤ m :=
  ⟨Nat.find_spec hex, fun _ hm => Nat.find_min' hex hm⟩

/-- A block whose proof is 3, for the `shaSel` instantiation. -/
def bW4 : Block :=
  { index := 1, timestamp := 0, transactions := [], proof := 3
    previous_hash := HashVal.intVal 1 }

def hexW4 : ∃ s, valid_proof shaSel bW4.proof s (HW bW4) = true :=
  ⟨2, by decide⟩

/-- C4 (witness): for the concrete digest `"h"` and guess hash `shaSel`, the
solved proof for `bW4` is accepted and minimal. -/
theorem proof_of_work_spec_witness :
    valid_proof shaSel bW4.proof (proof_of_work HW shaSel bW4 hexW4) (HW bW4) = true ∧
    ∀ m, valid_proof shaSel bW4.proof m (HW bW4) = true →
      proof_of_work HW shaSel bW4 hexW4 ≤ m :=
  proof_of_work_spec HW shaSel bW4 hexW4

/-- Local ledger and fetch used to show consensus adopting a chain that is
not rooted in the standard genesis block. -/
def bcC10 : Blockchain := { chain := [g0], current_transactions := [], nodes := ["p"] }

def fetchC10 : String → FetchResult := fun _ => FetchResult.response 200 5 cW

/-- C10: `valid_chain` puts no constraint on the first block of a chain: a
singleton chain whose block has index 7 and proof 3 validates under every
hash instantiation, the two-block chain `cW` rooted at that block validates
concretely, and consensus resolution adopts `cW` even though it is not rooted
in the genesis block. -/
theorem valid_chain_non_genesis :
    (∀ (H : Block → String) (sha : String → String), valid_chain H sha [bNG] = some true) ∧
    bNG.index ≠ 1 ∧ bNG.proof ≠ 100 ∧
    valid_chain HW shaAll cW = some true ∧
    resolve_conflicts HW shaAll fetchC10 bcC10 = Except.ok (true, { bcC10 with chain := cW }) :=
  ⟨fun _ _ => rfl, by decide, by decide, by decide, rfl⟩

/-- C9: registration fails with the invalid-address error exactly when the
parsed address has neither a network location nor a path; on success it
inserts the network location when one is present (address with scheme) and
the path otherwise (scheme-less address), and inserting an address already in
the peer set leaves it unchanged. -/
theorem register_node_spec (bc : Blockchain) (p : ParsedUrl) :
    (register_node bc p = Except.error "Invalid URL" ↔ p.netloc = "" ∧ p.path = "") ∧
    (p.netloc ≠ "" → register_node bc p =
      Except.ok { bc with nodes := addNode bc.nodes p.netloc }) ∧
    (p.netloc = "" → p.path ≠ "" → register_node bc p =
      Except.ok { bc with nodes := addNode bc.nodes p.path }) ∧
    (∀ x ∈ bc.nodes, addNode bc.nodes x = bc.nodes) := by
  refine ⟨?_, ?_, ?_, ?_⟩
  · constructor
    · intro h
      by_cases h1 : p.netloc = ""
      · by_cases h2 : p.path = ""
        · exact ⟨h1, h2⟩
        · simp [register_node, h1, h2] at h
      · simp [register_node, h1] at h
    · rintro ⟨h1, h2⟩
      simp [register_node, h1, h2]
  · intro h1
    simp [register_node, h1]
  · intro h1 h2
    simp [register_node, h1, h2]
  · intro x hx
    simp [addNode, hx]

/-- A ledger already knowing the peer `"h:1"`. -/
def bcW9 : Blockchain := { chain := [g0], current_transactions := [], nodes := ["h:1"] }

/-- C9 (witness): a parse with no network location and no path is rejected; a
parse with a network location inserts it; a scheme-less parse inserts its
path; and re-registering the already-present `"h:1"` leaves the peer set
unchanged. -/
theorem register_node_spec_witness :
    register_node bcW9 { netloc := "", path := "" } = Except.error "Invalid URL" ∧
    register_node bcW9 { netloc := "n:2", path := "" } =
      Except.ok { bcW9 with nodes := addNode bcW9.nodes "n:2" } ∧
    register_node bcW9 { netloc := "", path := "h:1" } =
      Except.ok { bcW9 with nodes := addNode bcW9.nodes "h:1" } ∧
    addNode bcW9.nodes "h:1" = bcW9.nodes :=
  ⟨(register_node_spec bcW9 { netloc := "", path := "" }).1.mpr ⟨rfl, rfl⟩,
   (register_node_spec bcW9 { netloc := "n:2", path := "" }).2.1 (by decide),
   (register_node_spec bcW9 { netloc := "", path := "h:1" }).2.2.1 rfl (by decide),
   (register_node_spec bcW9 { netloc := "", path := "" }).2.2.2 "h:1" (by decide)⟩

/-- C2: with a non-empty pool, `mine` solves the puzzle against the last
block as it stood before the reward transaction is added (the solved proof is
a function of that block alone), then appends the reward transaction
(sender "0", recipient this node, amount 1), and the minted block's
transaction set is the old pool followed by the reward transaction. -/
theorem mine_reward_order (H : Block → String) (sha : String → String)
    (node_id : String) (now : Nat) (bc : Blockchain) (hne) (hex)
    (hp : bc.current_transactions ≠ []) :
    ∃ b bc2, mine H sha node_id now bc hne hex = (some b, bc2) ∧
      b.transactions = bc.current_transactions ++ [reward_txn node_id] ∧
      b.proof = proof_of_work H sha (last_block bc (hne hp)) (hex hp) ∧
      b.previous_hash = HashVal.str (H (last_block bc (hne hp))) ∧
      b.index = bc.chain.length + 1 ∧
      b.timestamp = now ∧
      bc2.chain = bc.chain ++ [b] ∧
      bc2.current_transactions = [] ∧
      bc2.nodes = bc.nodes := by
  simp only [mine, dif_neg hp]
  exact ⟨_, _, rfl, rfl, rfl, rfl, rfl, rfl, rfl, rfl, rfl⟩

/-- A one-genesis ledger with a single pending transaction. -/
def bcW2 : Blockchain :=
  { chain := [g0]
    current_transactions := [{ sender := "a", recipient := "b", amount := 5 }]
    nodes := [] }

def hpW2 : bcW2.current_transactions ≠ [] := by decide

def hneW2 : bcW2.current_transactions ≠ [] → bcW2.chain ≠ [] := fun _ => by decide

def hexW2 : ∀ _h : bcW2.current_transactions ≠ [], ∃ s,
    valid_proof shaAll (last_block bcW2 (hneW2 _h)).proof s
      (HW (last_block bcW2 (hneW2 _h))) = true :=
  fun _ => ⟨0, rfl⟩

/-- C2 (witness): mining `bcW2` mints a block whose transactions are the
pending transaction followed by the reward transaction, and whose proof is
the solution for the pre-mine last block. -/
theorem mine_reward_order_witness :
    ∃ b bc2, mine HW shaAll "nid" 0 bcW2 hneW2 hexW2 = (some b, bc2) ∧
      b.transactions = bcW2.current_transactions ++ [reward_txn "nid"] ∧
      b.proof = proof_of_work HW shaAll (last_block bcW2 (hneW2 hpW2)) (hexW2 hpW2) ∧
      b.previous_hash = HashVal.str (HW (last_block bcW2 (hneW2 hpW2))) ∧
      b.index = bcW2.chain.length + 1 ∧
      b.timestamp = 0 ∧
      bc2.chain = bcW2.chain ++ [b] ∧
      bc2.current_transactions = [] ∧
      bc2.nodes = bcW2.nodes :=
  mine_reward_order HW shaAll "nid" 0 bcW2 hneW2 hexW2 hpW2

/-- The per-pair check of the `valid_chain` walk: the successor records the
predecessor's digest and carries a proof accepted against it. -/
def linkOK (H : Block → String) (sha : String → String) (x y : Block) : Prop :=
  y.previous_hash = HashVal.str (H x) ∧ valid_proof sha x.proof y.proof (H x) = true

theorem validFrom_iff_chain (H : Block → String) (sha : String → String) :
    ∀ (l : List Block) (a : Block),
      validFrom H sha a l = true ↔ List.Chain' (linkOK H sha) (a :: l) := by
  intro l
  induction l with
  | nil =>
    intro a
    simp [validFrom, List.chain'_singleton]
  | cons b t ih =>
    intro a
    rw [List.chain'_cons]
    by_cases hp : b.previous_hash = HashVal.str (H a)
    · by_cases hv : valid_proof sha a.proof b.proof (H a) = true
      · simp only [validFrom, hp, hv]
        simp [linkOK, hp, hv, ih b]
      · simp only [validFrom]
        simp [linkOK, hp, hv]
    · simp only [validFrom]
      simp [linkOK, hp]

theorem valid_chain_ne_nil {H : Block → String} {sha : String → String}
    {c : List Block} (h : c ≠ []) : ∃ v, valid_chain H sha c = some v := by
  cases c with
  | nil => exact absurd rfl h
  | cons a l => exact ⟨validFrom H sha a l, rfl⟩

theorem valid_chain_some_true_ne_nil {H : Block → String} {sha : String → String}
    {c : List Block} (h : valid_chain H sha c = some true) : c ≠ [] := by
  cases c with
  | nil => exact Option.noConfusion h
  | cons a l => exact List.cons_ne_nil a l

/-- Counterexample to C5 as stated: on the empty chain, `valid_chain` does
not return true — `chain[0]` raises IndexError (modelled as `none`). -/
theorem valid_chain_empty_cex :
    valid_chain HW shaAll [] = none ∧ valid_chain HW shaAll [] ≠ some true := by
  exact ⟨rfl, fun h => Option.noConfusion h⟩

/-- C5 (amended): for every non-empty chain, `valid_chain` returns true iff
for every adjacent pair the successor's `previous_hash` equals the digest of
its predecessor and the pair's proofs pass `valid_proof`; in particular any
one-block chain validates.  On the empty chain the code raises IndexError
instead of returning true. -/
theorem valid_chain_spec (H : Block → String) (sha : String → String)
    (c : List Block) (hc : c ≠ []) :
    valid_chain H sha c = some true ↔
      ∀ i : Nat, ∀ h : i + 1 < c.length,
        (c.get ⟨i + 1, h⟩).previous_hash =
          HashVal.str (H (c.get ⟨i, Nat.lt_of_succ_lt h⟩)) ∧
        valid_proof sha (c.get ⟨i, Nat.lt_of_succ_lt h⟩).proof
          (c.get ⟨i + 1, h⟩).proof (H (c.get ⟨i, Nat.lt_of_succ_lt h⟩)) = true := by
  cases c with
  | nil => exact absurd rfl hc
  | cons a l =>
    have h1 : valid_chain H sha (a :: l) = some (validFrom H sha a l) := rfl
    rw [h1, Option.some_inj, validFrom_iff_chain, List.chain'_iff_get]
    constructor
    · intro hall i hi
      have := hall i (by simpa using Nat.lt_of_succ_lt_succ (by simpa using hi))
      exact this
    · intro hall i hi
      have hi' : i + 1 < (a :: l).length := by
        simpa using Nat.succ_lt_succ (by simpa using hi)
      exact hall i hi'

/-- C5 (witness): the iff instantiated at the concrete two-block chain `cW`. -/
theorem valid_chain_spec_witness :
    valid_chain HW shaAll cW = some true ↔
      ∀ i : Nat, ∀ h : i + 1 < cW.length,
        (cW.get ⟨i + 1, h⟩).previous_hash =
          HashVal.str (HW (cW.get ⟨i, Nat.lt_of_succ_lt h⟩)) ∧
        valid_proof shaAll (cW.get ⟨i, Nat.lt_of_succ_lt h⟩).proof
          (cW.get ⟨i + 1, h⟩).proof (HW (cW.get ⟨i, Nat.lt_of_succ_lt h⟩)) = true :=
  valid_chain_spec HW shaAll cW (by decide)

theorem scanPeers_characterize (H : Block → String) (sha : String → String)
    (fetch : String → FetchResult) (M0 : Nat) :
    ∀ (peers : List String) (maxLen : Nat) (best : Option (List Block)),
    M0 ≤ maxLen →
    (∀ n ∈ peers, fetch n ≠ FetchResult.raised) →
    (∀ n ∈ peers, ∀ len c, fetch n = FetchResult.response 200 len c → M0 < len → c ≠ []) →
    (scanPeers H sha fetch peers maxLen best = Except.ok (maxLen, best) ∧
       ∀ n ∈ peers, ∀ len c, Qf H sha fetch n len c → len ≤ maxLen)
    ∨ (∃ n ∈ peers, ∃ len c, Qf H sha fetch n len c ∧ maxLen < len ∧
        scanPeers H sha fetch peers maxLen best = Except.ok (len, some c) ∧
        ∀ m ∈ peers, ∀ lm cm, Qf H sha fetch m lm cm → lm ≤ len) := by
  intro peers
  induction peers with
  | nil =>
    intro maxLen best _ _ _
    exact Or.inl ⟨rfl, fun n hn => absurd hn (List.not_mem_nil n)⟩
  | cons n rest ih =>
    intro maxLen best hM h1 h2
    have h1r : ∀ m ∈ rest, fetch m ≠ FetchResult.raised :=
      fun m hm => h1 m (List.mem_cons_of_mem n hm)
    have h2r : ∀ m ∈ rest, ∀ len c, fetch m = FetchResult.response 200 len c →
        M0 < len → c ≠ [] :=
      fun m hm => h2 m (List.mem_cons_of_mem n hm)
    cases hfn : fetch n with
    | raised => exact absurd hfn (h1 n (List.mem_cons_self n rest))
    | response status len chain =>
      by_cases hs : status = 200
      · subst hs
        by_cases hlen : len > maxLen
        · have hcne : chain ≠ [] :=
            h2 n (List.mem_cons_self n rest) len chain hfn (lt_of_le_of_lt hM hlen)
          obtain ⟨v, hv⟩ := @valid_chain_ne_nil H sha chain hcne
          cases v with
          | true =>
            have step : scanPeers H sha fetch (n :: rest) maxLen best =
                scanPeers H sha fetch rest len (some chain) := by
              simp [scanPeers, hfn, hlen, hv]
            have hqn : Qf H sha fetch n len chain := ⟨hfn, hv⟩
            rcases ih len (some chain) (le_of_lt (lt_of_le_of_lt hM hlen)) h1r h2r with
              ⟨heq, hbound⟩ | ⟨n', hn', len', c', hq', hlt', heq', hbound'⟩
            · refine Or.inr ⟨n, List.mem_cons_self n rest, len, chain, hqn, hlen,
                step.trans heq, ?_⟩
              intro m hm lm cm hqm
              rcases List.mem_cons.mp hm with rfl | hm'
              · rw [hqm.1] at hfn
                injection hfn with e1 e2 e3
                omega
              · exact hbound m hm' lm cm hqm
            · refine Or.inr ⟨n', List.mem_cons_of_mem n hn', len', c', hq',
                lt_trans hlen hlt', step.trans heq', ?_⟩
              intro m hm lm cm hqm
              rcases List.mem_cons.mp hm with rfl | hm'
              · rw [hqm.1] at hfn
                injection hfn with e1 e2 e3
                omega
              · exact hbound' m hm' lm cm hqm
          | false =>
            have step : scanPeers H sha fetch (n :: rest) maxLen best =
                scanPeers H sha fetch rest maxLen best := by
              simp [scanPeers, hfn, hlen, hv]
            have hqn : ∀ lm cm, ¬ Qf H sha fetch n lm cm := by
              intro lm cm hqm
              rw [hqm.1] at hfn
              injection hfn with e1 e2 e3
              subst e3
              rw [hqm.2] at hv
              exact Bool.noConfusion (Option.some_inj.mp hv)
            rcases ih maxLen best hM h1r h2r with
              ⟨heq, hbound⟩ | ⟨n', hn', len', c', hq', hlt', heq', hbound'⟩
            · refine Or.inl ⟨step.trans heq, ?_⟩
              intro m hm lm cm hqm
              rcases List.mem_cons.mp hm with rfl | hm'
              · exact absurd hqm (hqn lm cm)
              · exact hbound m hm' lm cm hqm
            · refine Or.inr ⟨n', List.mem_cons_of_mem n hn', len', c', hq', hlt',
                step.trans heq', ?_⟩
              intro m hm lm cm hqm
              rcases List.mem_cons.mp hm with rfl | hm'
              · exact absurd hqm (hqn lm cm)
              · exact hbound' m hm' lm cm hqm
        · have step : scanPeers H sha fetch (n :: rest) maxLen best =
              scanPeers H sha fetch rest maxLen best := by
            simp [scanPeers, hfn, hlen]
          have hqn : ∀ lm cm, Qf H sha fetch n lm cm → lm ≤ maxLen := by
            intro lm cm hqm
            rw [hqm.1] at hfn
            injection hfn with e1 e2 e3
            omega
          rcases ih maxLen best hM h1r h2r with
            ⟨heq, hbound⟩ | ⟨n', hn', len', c', hq', hlt', heq', hbound'⟩
          · refine Or.inl ⟨step.trans heq, ?_⟩
            intro m hm lm cm hqm
            rcases List.mem_cons.mp hm with rfl | hm'
            · exact hqn lm cm hqm
            · exact hbound m hm' lm cm hqm
          · refine Or.inr ⟨n', List.mem_cons_of_mem n hn', len', c', hq', hlt',
              step.trans heq', ?_⟩
            intro m hm lm cm hqm
            rcases List.mem_cons.mp hm with rfl | hm'
            · exact le_of_lt (lt_of_le_of_lt (hqn lm cm hqm) hlt')
            · exact hbound' m hm' lm cm hqm
      · have step : scanPeers H sha fetch (n :: rest) maxLen best =
            scanPeers H sha fetch rest maxLen best := by
          simp [scanPeers, hfn, hs]
        have hqn : ∀ lm cm, ¬ Qf H sha fetch n lm cm := by
          intro lm cm hqm
          rw [hqm.1] at hfn
          injection hfn with e1 e2 e3
          exact hs e1.symm
        rcases ih maxLen best hM h1r h2r with
          ⟨heq, hbound⟩ | ⟨n', hn', len', c', hq', hlt', heq', hbound'⟩
        · refine Or.inl ⟨step.trans heq, ?_⟩
          intro m hm lm cm hqm
          rcases List.mem_cons.mp hm with rfl | hm'
          · exact absurd hqm (hqn lm cm)
          · exact hbound m hm' lm cm hqm
        · refine Or.inr ⟨n', List.mem_cons_of_mem n hn', len', c', hq', hlt',
            step.trans heq', ?_⟩
          intro m hm lm cm hqm
          rcases List.mem_cons.mp hm with rfl | hm'
          · exact absurd hqm (hqn lm cm)
          · exact hbound' m hm' lm cm hqm

/-- Counterexample to C1 as stated: a single peer responding with status 200,
reported length 5 and an *empty* chain makes `resolve_conflicts` raise
(IndexError inside `valid_chain`) instead of returning false with the local
chain unchanged. -/
def bcW1e : Blockchain := { chain := [g0], current_transactions := [], nodes := ["p"] }

def fetchW1e : String → FetchResult := fun _ => FetchResult.response 200 5 []

/-- C1 (counterexample): the scan aborts with an error, so `resolve` neither
returns true nor false on this response set. -/
theorem resolve_empty_chain_cex :
    resolve_conflicts HW shaAll fetchW1e bcW1e = Except.error () ∧
    resolve_conflicts HW shaAll fetchW1e bcW1e ≠ Except.ok (false, bcW1e) :=
  ⟨rfl, fun h => Except.noConfusion
    (show Except.error () = Except.ok (false, bcW1e) from h)⟩

/-- C1 (amended): provided no peer fetch raises and every status-200 response
reporting a length greater than the local chain's length carries a non-empty
chain, `resolve_conflicts` returns false with the ledger unchanged when no
scanned peer offers a validating chain with reported length greater than the
local chain's length, and otherwise returns true having adopted a qualifying
chain whose reported length is maximal among all qualifying peers. -/
theorem resolve_conflicts_spec (H : Block → String) (sha : String → String)
    (fetch : String → FetchResult) (bc : Blockchain)
    (h1 : ∀ n ∈ bc.nodes, fetch n ≠ FetchResult.raised)
    (h2 : ∀ n ∈ bc.nodes, ∀ len c, fetch n = FetchResult.response 200 len c →
      bc.chain.length < len → c ≠ []) :
    (resolve_conflicts H sha fetch bc = Except.ok (false, bc) ∧
       ∀ n ∈ bc.nodes, ∀ len c, Qf H sha fetch n len c → len ≤ bc.chain.length)
    ∨ (∃ n ∈ bc.nodes, ∃ len c, Qf H sha fetch n len c ∧ bc.chain.length < len ∧
        resolve_conflicts H sha fetch bc = Except.ok (true, { bc with chain := c }) ∧
        ∀ m ∈ bc.nodes, ∀ lm cm, Qf H sha fetch m lm cm → lm ≤ len) := by
  rcases scanPeers_characterize H sha fetch bc.chain.length bc.nodes bc.chain.length none
    le_rfl h1 h2 with ⟨heq, hbound⟩ | ⟨n, hn, len, c, hq, hlt, heq, hbound⟩
  · left
    refine ⟨?_, hbound⟩
    simp [resolve_conflicts, heq]
  · right
    have hcne : c ≠ [] := valid_chain_some_true_ne_nil hq.2
    refine ⟨n, hn, len, c, hq, hlt, ?_, hbound⟩
    cases c with
    | nil => exact absurd rfl hcne
    | cons a t => simp [resolve_conflicts, heq]

/-- Local ledger and peer offering the valid longer chain `cW`. -/
def bcW1 : Blockchain := { chain := [g0], current_transactions := [], nodes := ["q"] }

def fetchW1 : String → FetchResult := fun _ => FetchResult.response 200 3 cW

def hW11 : ∀ n ∈ bcW1.nodes, fetchW1 n ≠ FetchResult.raised :=
  fun _ _ h => FetchResult.noConfusion h

def hW12 : ∀ n ∈ bcW1.nodes, ∀ len c, fetchW1 n = FetchResult.response 200 len c →
    bcW1.chain.length < len → c ≠ [] := by
  intro n _ len c hf _
  have hf' : FetchResult.response 200 3 cW = FetchResult.response 200 len c := hf
  injection hf' with e1 e2 e3
  rw [← e3]
  exact fun h => List.noConfusion h

/-- C1 (witness): the amended statement instantiated at a one-peer network
offering the valid length-3 chain `cW` against a length-1 local chain. -/
theorem resolve_conflicts_spec_witness :
    (resolve_conflicts HW shaAll fetchW1 bcW1 = Except.ok (false, bcW1) ∧
       ∀ n ∈ bcW1.nodes, ∀ len c, Qf HW shaAll fetchW1 n len c → len ≤ bcW1.chain.length)
    ∨ (∃ n ∈ bcW1.nodes, ∃ len c, Qf HW shaAll fetchW1 n len c ∧ bcW1.chain.length < len ∧
        resolve_conflicts HW shaAll fetchW1 bcW1 =
          Except.ok (true, { bcW1 with chain := c }) ∧
        ∀ m ∈ bcW1.nodes, ∀ lm cm, Qf HW shaAll fetchW1 m lm cm → lm ≤ len) :=
  resolve_conflicts_spec HW shaAll fetchW1 bcW1 hW11 hW12

/-- Counterexample to C6 as stated: of two registered peers, `"a"` is
unreachable (its fetch raises) and `"b"` offers the valid longer chain `cW`;
`resolve_conflicts` propagates the exception instead of adopting `"b"`'s
chain and returning true. -/
def bcW6 : Blockchain := { chain := [g0], current_transactions := [], nodes := ["a", "b"] }

def fetchW6 : String → FetchResult :=
  fun n => if n = "a" then FetchResult.raised else FetchResult.response 200 5 cW

/-- C6 (counterexample): the reachable peer's chain validates and is longer,
yet resolution aborts with the propagated transport error. -/
theorem resolve_raised_cex :
    valid_chain HW shaAll cW = some true ∧
    bcW6.chain.length < 5 ∧
    resolve_conflicts HW shaAll fetchW6 bcW6 = Except.error () := by
  exact ⟨by decide, by decide, rfl⟩

/-- C6 (amended): a peer returning a non-success HTTP status is skipped as a
soft per-peer failure — the scan continues over the remaining peers exactly
as if that peer were absent — but a transport-level failure (the fetch
raising) is not caught: it aborts the whole resolution as a hard error. -/
theorem scanPeers_skip_and_raise (H : Block → String) (sha : String → String)
    (fetch : String → FetchResult) (n : String) (rest : List String)
    (maxLen : Nat) (best : Option (List Block)) :
    (∀ s len c, fetch n = FetchResult.response s len c → s ≠ 200 →
        scanPeers H sha fetch (n :: rest) maxLen best =
          scanPeers H sha fetch rest maxLen best) ∧
    (fetch n = FetchResult.raised →
        scanPeers H sha fetch (n :: rest) maxLen best = Except.error ()) := by
  constructor
  · intro s len c hf hs
    simp [scanPeers, hf, hs]
  · intro hf
    simp [scanPeers, hf]

/-- A fetch where peer `"a"` raises and every other peer answers 404. -/
def fetchW6c : String → FetchResult :=
  fun n => if n = "a" then FetchResult.raised else FetchResult.response 404 3 cW

/-- C6 (witness): the skip equation applied to the 404 peer `"c"` and the
abort equation applied to the raising peer `"a"`. -/
theorem scanPeers_skip_and_raise_witness :
    scanPeers HW shaAll fetchW6c ["c"] 1 none = scanPeers HW shaAll fetchW6c [] 1 none ∧
    scanPeers HW shaAll fetchW6c ["a"] 1 none = Except.error () :=
  ⟨(scanPeers_skip_and_raise HW shaAll fetchW6c "c" [] 1 none).1 404 3 cW rfl
      (by decide),
   (scanPeers_skip_and_raise HW shaAll fetchW6c "a" [] 1 none).2 rfl⟩
